import Mathlib

/-!
Verification development for the batch-analysis orchestration core of the
repository (web/utils/batch_progress_store.py, web/utils/batch_analysis_runner.py,
web/utils/model_points.py and the batch-analysis call sites in web/app.py).

The Python modules are shallowly embedded:
* Python `float` values (timestamps, progress percentages) become `ℚ`;
* Python `dict` tables keyed by strings become association lists with
  first-occurrence lookup, which matches `dict` semantics because keys are
  never duplicated by the operations;
* fallible code becomes `Except`/`Option`.

Two embeddings of `batch_progress_store.py` are given:
* a value-level one (`BatchProgressStore`), adequate for every claim about the
  *contents* of the store, since the module mutates entries only through its
  own operations; and
* a reference-level one (`BatchProgressStoreRef`) that makes Python's object
  aliasing explicit (nested dicts/lists live in a heap addressed by `Nat`
  references), which is needed to express the copy **depth** of
  `get_snapshot` (`dict(...)` copies only the top level).
-/

/-- Association-list lookup, first occurrence wins (Python `dict` access). -/
def alookup {α β : Type} [DecidableEq α] : List (α × β) → α → Option β
  | [], _ => none
  | (k, v) :: rest, key => if k = key then some v else alookup rest key

/-- Association-list write: overwrite the first binding of the key in place,
or append a fresh binding (Python `d[k] = v`, insertion-ordered). -/
def aset {α β : Type} [DecidableEq α] : List (α × β) → α → β → List (α × β)
  | [], key, v => [(key, v)]
  | (k, w) :: rest, key, v =>
    if k = key then (key, v) :: rest else (k, w) :: aset rest key v

/-- In-place modification of an existing binding; a missing key is left
untouched. -/
def amodify {α β : Type} [DecidableEq α] (l : List (α × β)) (key : α)
    (f : β → β) : List (α × β) :=
  match alookup l key with
  | none => l
  | some v => aset l key (f v)

/-- Association-list deletion (Python `d.pop(k, None)`). -/
def aerase {α β : Type} [DecidableEq α] : List (α × β) → α → List (α × β)
  | [], _ => []
  | (k, w) :: rest, key => if k = key then rest else (k, w) :: aerase rest key

namespace BatchProgressStore

/-- The nested `progress_info` dict created by `init_batch` and mutated in
place by the other operations of `batch_progress_store.py`. -/
structure ProgressInfo where
  current_stock : String
  current_index : Nat
  total_stocks : Nat
  progress : ℚ
  status : String
  start_time : ℚ
deriving DecidableEq, Repr

/-- One element of `completed_stocks`: the dicts appended by
`batch_analysis_runner.py` (both the formatted success record and the two
failure records).  `payload` stands for the opaque formatted analysis output;
`analysis_duration` is absent on the exception path. -/
structure StockResult where
  stock_symbol : String
  success : Bool
  error : Option String
  payload : Option String
  analysis_time : ℚ
  analysis_duration : Option ℚ
deriving DecidableEq, Repr

/-- The per-batch record stored in the module-level `_batches` dict. -/
structure BatchEntry where
  progress_info : ProgressInfo
  completed_stocks : List StockResult
  status : String
  last_update : ℚ
deriving DecidableEq, Repr

/-- The module-level `_batches` table. -/
def Store : Type := List (String × BatchEntry)

instance : DecidableEq Store := by
  unfold Store
  infer_instance

/-- The `progress_info` value written by `init_batch` (`start_time` is the
first `time.time()` call of the function). -/
def initProgressInfo (total_stocks : Nat) (now : ℚ) : ProgressInfo :=
  { current_stock := ""
    current_index := 0
    total_stocks := total_stocks
    progress := 0
    status := "准备中..."
    start_time := now }

/-- `init_batch`: overwrite the table entry with a fresh record.  `t1` and
`t2` are the two `time.time()` calls (for `start_time` and `last_update`). -/
def init_batch (σ : Store) (batch_id : String) (total_stocks : Nat)
    (t1 t2 : ℚ) : Store :=
  aset σ batch_id
    { progress_info := initProgressInfo total_stocks t1
      completed_stocks := []
      status := "running"
      last_update := t2 }

/-- The partial-fields dict passed to `update_progress`; `none` means the key
is absent from the dict.  Only the five keys actually written by the callers
appear. -/
structure ProgressUpdate where
  current_stock : Option String
  current_index : Option Nat
  total_stocks : Option Nat
  progress : Option ℚ
  status : Option String
deriving DecidableEq, Repr

/-- Python `progress_info.update(partial)`: each present key overwrites the
stored one. -/
def applyUpdate (pi : ProgressInfo) (u : ProgressUpdate) : ProgressInfo :=
  { current_stock := u.current_stock.getD pi.current_stock
    current_index := u.current_index.getD pi.current_index
    total_stocks := u.total_stocks.getD pi.total_stocks
    progress := u.progress.getD pi.progress
    status := u.status.getD pi.status
    start_time := pi.start_time }

/-- `update_progress`: silent no-op on an unknown id, otherwise merge the
partial fields into `progress_info` and refresh `last_update`. -/
def update_progress (σ : Store) (batch_id : String) (u : ProgressUpdate)
    (now : ℚ) : Store :=
  match alookup σ batch_id with
  | none => σ
  | some e =>
    aset σ batch_id
      { e with progress_info := applyUpdate e.progress_info u, last_update := now }

/-- `add_completed_stock`: silent no-op on an unknown id, otherwise append the
result record and refresh `last_update`. -/
def add_completed_stock (σ : Store) (batch_id : String) (result : StockResult)
    (now : ℚ) : Store :=
  match alookup σ batch_id with
  | none => σ
  | some e =>
    aset σ batch_id
      { e with completed_stocks := e.completed_stocks ++ [result], last_update := now }

/-- `set_status`: silent no-op on an unknown id; writes the status text,
optionally the progress value, and flips the top-level status to
`"completed"` exactly when the progress argument equals `100`. -/
def set_status (σ : Store) (batch_id : String) (status : String)
    (progress : Option ℚ) (now : ℚ) : Store :=
  match alookup σ batch_id with
  | none => σ
  | some e =>
    let pi := { e.progress_info with status := status }
    let pi := match progress with
      | some p => { pi with progress := p }
      | none => pi
    aset σ batch_id
      { e with progress_info := pi
               status := if progress = some 100 then "completed" else e.status
               last_update := now }

/-- `complete_batch`: silent no-op on an unknown id, otherwise mark the batch
completed and force the progress to `100`. -/
def complete_batch (σ : Store) (batch_id : String) (now : ℚ) : Store :=
  match alookup σ batch_id with
  | none => σ
  | some e =>
    aset σ batch_id
      { e with status := "completed"
               progress_info :=
                 { e.progress_info with status := "✅ 批量分析完成", progress := 100 }
               last_update := now }

/-- `fail_batch`: silent no-op on an unknown id, otherwise mark the batch
failed with a diagnostic status text. -/
def fail_batch (σ : Store) (batch_id : String) (error : String) (now : ℚ) : Store :=
  match alookup σ batch_id with
  | none => σ
  | some e =>
    aset σ batch_id
      { e with status := "failed"
               progress_info :=
                 { e.progress_info with status := "❌ 批量分析失败: " ++ error }
               last_update := now }

/-- `get_snapshot`: `dict(_batches.get(batch_id, {}))`.  `none` models the
empty dict returned for a missing id; the copy depth of the `dict(...)` call
is analysed in the reference-level model below.  The function is total: it
never raises. -/
def get_snapshot (σ : Store) (batch_id : String) : Option BatchEntry :=
  alookup σ batch_id

/-- `clear_batch`: `_batches.pop(batch_id, None)`. -/
def clear_batch (σ : Store) (batch_id : String) : Store :=
  aerase σ batch_id

end BatchProgressStore

namespace BatchProgressStoreRef

open BatchProgressStore (ProgressInfo StockResult ProgressUpdate applyUpdate initProgressInfo)

/-- The top level of one `_batches[batch_id]` dict, with the two nested
mutable objects (`progress_info` dict and `completed_stocks` list) replaced
by heap references, mirroring Python object identity. -/
structure EntryRef where
  pi : Nat
  cs : Nat
  status : String
  last_update : ℚ
deriving DecidableEq, Repr

/-- The module state of `batch_progress_store.py` with Python's object graph
made explicit: `piHeap`/`csHeap` hold the nested objects, `batches` the
top-level dict.  `nextRef` allocates fresh object identities. -/
structure RefStore where
  nextRef : Nat
  piHeap : List (Nat × ProgressInfo)
  csHeap : List (Nat × List StockResult)
  batches : List (String × EntryRef)
deriving DecidableEq

/-- The empty module state (`_batches = {}`). -/
def emptyRefStore : RefStore :=
  { nextRef := 0, piHeap := [], csHeap := [], batches := [] }

/-- `init_batch` in the reference model: the dict literal allocates a fresh
`progress_info` dict and a fresh `completed_stocks` list. -/
def init_batch (σ : RefStore) (batch_id : String) (total_stocks : Nat)
    (t1 t2 : ℚ) : RefStore :=
  { nextRef := σ.nextRef + 2
    piHeap := aset σ.piHeap σ.nextRef (initProgressInfo total_stocks t1)
    csHeap := aset σ.csHeap (σ.nextRef + 1) []
    batches := aset σ.batches batch_id
      { pi := σ.nextRef, cs := σ.nextRef + 1, status := "running", last_update := t2 } }

/-- `update_progress` in the reference model: mutates the shared
`progress_info` object in place and rebinds `last_update` in the top-level
dict. -/
def update_progress (σ : RefStore) (batch_id : String) (u : ProgressUpdate)
    (now : ℚ) : RefStore :=
  match alookup σ.batches batch_id with
  | none => σ
  | some e =>
    { σ with piHeap := amodify σ.piHeap e.pi (fun pi => applyUpdate pi u)
             batches := aset σ.batches batch_id { e with last_update := now } }

/-- `add_completed_stock` in the reference model: appends to the shared
`completed_stocks` list object in place. -/
def add_completed_stock (σ : RefStore) (batch_id : String) (result : StockResult)
    (now : ℚ) : RefStore :=
  match alookup σ.batches batch_id with
  | none => σ
  | some e =>
    { σ with csHeap := amodify σ.csHeap e.cs (fun rs => rs ++ [result])
             batches := aset σ.batches batch_id { e with last_update := now } }

/-- `set_status` in the reference model. -/
def set_status (σ : RefStore) (batch_id : String) (status : String)
    (progress : Option ℚ) (now : ℚ) : RefStore :=
  match alookup σ.batches batch_id with
  | none => σ
  | some e =>
    { σ with piHeap := amodify σ.piHeap e.pi (fun pi =>
               let pi := { pi with status := status }
               match progress with
               | some p => { pi with progress := p }
               | none => pi)
             batches := aset σ.batches batch_id
               { e with status := if progress = some 100 then "completed" else e.status
                        last_update := now } }

/-- `complete_batch` in the reference model. -/
def complete_batch (σ : RefStore) (batch_id : String) (now : ℚ) : RefStore :=
  match alookup σ.batches batch_id with
  | none => σ
  | some e =>
    { σ with piHeap := amodify σ.piHeap e.pi (fun pi =>
               { pi with status := "✅ 批量分析完成", progress := 100 })
             batches := aset σ.batches batch_id
               { e with status := "completed", last_update := now } }

/-- `fail_batch` in the reference model. -/
def fail_batch (σ : RefStore) (batch_id : String) (error : String) (now : ℚ) : RefStore :=
  match alookup σ.batches batch_id with
  | none => σ
  | some e =>
    { σ with piHeap := amodify σ.piHeap e.pi (fun pi =>
               { pi with status := "❌ 批量分析失败: " ++ error })
             batches := aset σ.batches batch_id
               { e with status := "failed", last_update := now } }

/-- `get_snapshot` in the reference model: `dict(_batches.get(batch_id, {}))`
copies the **top level only**.  The returned `EntryRef` is an independent
value (its `status`/`last_update` slots are decoupled from the store), but its
`pi`/`cs` slots still reference the shared nested objects. -/
def get_snapshot (σ : RefStore) (batch_id : String) : Option EntryRef :=
  alookup σ.batches batch_id

/-- Reading the nested `progress_info` object a snapshot references, in the
current state of the heap. -/
def derefPI (σ : RefStore) (r : Nat) : Option ProgressInfo :=
  alookup σ.piHeap r

/-- Reading the nested `completed_stocks` object a snapshot references, in
the current state of the heap. -/
def derefCS (σ : RefStore) (r : Nat) : Option (List StockResult) :=
  alookup σ.csHeap r

/-- The five mutating store operations at fixed arguments, as functions on
the reference store. -/
def refMutators (bid : String) (u : ProgressUpdate) (r : StockResult)
    (s : String) (p : Option ℚ) (err : String) (t : ℚ) :
    List (RefStore → RefStore) :=
  [fun σ => update_progress σ bid u t,
   fun σ => add_completed_stock σ bid r t,
   fun σ => set_status σ bid s p t,
   fun σ => complete_batch σ bid t,
   fun σ => fail_batch σ bid err t]

end BatchProgressStoreRef

namespace ModelPoints

/-- The two global enable switches of `model_points.py`
(`points_toggle` configuration, both default `True`). -/
structure ToggleConfig where
  enable_research_depth_points : Bool
  enable_model_points : Bool
deriving DecidableEq, Repr

/-- A loaded model-points table keyed by `(provider, model)`, the result of
`_get_config()`; the JSON file I/O of the loader is abstracted into this
argument, insertion order preserved (the fuzzy-match loop iterates it). -/
def ModelConfig : Type := List ((String × String) × Nat)

instance : DecidableEq ModelConfig := by
  unfold ModelConfig
  infer_instance

/-- A loaded research-depth table keyed by depth level, the result of
`_get_research_depth_config()`. -/
def DepthConfig : Type := List (Nat × Nat)

instance : DecidableEq DepthConfig := by
  unfold DepthConfig
  infer_instance

/-- `DEFAULT_RESEARCH_DEPTH_POINTS_CONFIG` of `model_points.py`. -/
def DEFAULT_RESEARCH_DEPTH_POINTS_CONFIG : DepthConfig :=
  [(1, 1), (2, 2), (3, 3), (4, 5), (5, 8)]

/-- `DEFAULT_POINTS` of `model_points.py`: fallback when a model is not
configured at all. -/
def DEFAULT_POINTS : Nat := 1

/-- The providers for which a `(provider, "default")` entry is consulted and
fuzzy matching is skipped. -/
def specialProvider (provider : String) : Bool :=
  provider = "openrouter" || provider = "custom_openai" || provider = "qianfan"

/-- The fuzzy-match loop of `get_model_points`: first entry of the same
provider that is not the `default` entry and whose model name matches
exactly, or — for non-special providers — by prefix in either direction. -/
def fuzzyLookup (provider model : String) : ModelConfig → Option Nat
  | [] => none
  | ((cp, cm), pts) :: rest =>
    if cp = provider ∧ cm ≠ "default" ∧
        (model = cm ∨
          (¬ specialProvider provider = true ∧
            (cm.isPrefixOf model ∨ model.isPrefixOf cm)))
    then some pts
    else fuzzyLookup provider model rest

/-- `get_model_points`: normalise the inputs, try an exact `(provider, model)`
hit, then the provider's `default` entry for the special providers, then the
fuzzy loop, and finally `DEFAULT_POINTS`. -/
def get_model_points (config : ModelConfig) (llm_provider llm_model : String) : Nat :=
  let provider := llm_provider.toLower.trim
  let model := llm_model.trim
  match alookup config (provider, model) with
  | some p => p
  | none =>
    match (if specialProvider provider then alookup config (provider, "default") else none) with
    | some p => p
    | none => (fuzzyLookup provider model config).getD DEFAULT_POINTS

/-- `get_research_depth_points`: raises `ValueError` outside 1..5, otherwise
looks the level up in the loaded table with the built-in default as
fallback. -/
def get_research_depth_points (config : DepthConfig) (research_depth : Nat) :
    Except String Nat :=
  if research_depth < 1 ∨ 5 < research_depth then
    .error ("研究深度必须在1-5之间，当前值: " ++ toString research_depth)
  else
    .ok ((alookup config research_depth).getD
      ((alookup DEFAULT_RESEARCH_DEPTH_POINTS_CONFIG research_depth).getD 1))

/-- `get_analysis_points`: the per-job quote.  Sums the depth base cost (only
when its toggle is on) and the model surcharge (only when its toggle is on
and both strings are truthy, i.e. non-`None` and non-empty). -/
def get_analysis_points (toggles : ToggleConfig) (depthCfg : DepthConfig)
    (modelCfg : ModelConfig) (research_depth : Nat)
    (llm_provider llm_model : Option String) : Except String Nat := do
  let base ←
    if toggles.enable_research_depth_points then
      get_research_depth_points depthCfg research_depth
    else
      pure 0
  let surcharge :=
    match llm_provider, llm_model with
    | some p, some m =>
      if toggles.enable_model_points ∧ p ≠ "" ∧ m ≠ "" then
        get_model_points modelCfg p m
      else 0
    | _, _ => 0
  pure (base + surcharge)

end ModelPoints

namespace WebApp

open BatchProgressStore

/-- Batch-id generation at submission time in `render_batch_analysis_page`
(web/app.py): the f-string `batch_` + `uuid.uuid4().hex[:8]` + `_` +
`datetime.now` timestamp.  The logged-in username is in scope at the call
site but is not an input to the identifier. -/
def submissionBatchId (username rand8 timestamp : String) : String :=
  "batch_" ++ rand8 ++ "_" ++ timestamp

/-- The progress-poll path of `render_batch_analysis_page` (web/app.py):
reads `st.session_state.current_batch_id` — an identifier from the caller's
own session — and fetches the store snapshot for it.  The logged-in user is
not consulted and no ownership check is performed. -/
def resolveBatchPoll (currentUser : String) (σ : Store)
    (current_batch_id : String) : Option BatchEntry :=
  get_snapshot σ current_batch_id

/-- The batch quote of `render_batch_analysis_page` (web/app.py):
`need_points = len(stock_symbols) * get_analysis_points(depth, provider, model)`. -/
def batchQuote (toggles : ModelPoints.ToggleConfig)
    (depthCfg : ModelPoints.DepthConfig) (modelCfg : ModelPoints.ModelConfig)
    (research_depth : Nat) (llm_provider llm_model : String)
    (jobCount : Nat) : Except String Nat := do
  let points_per_stock ←
    ModelPoints.get_analysis_points toggles depthCfg modelCfg research_depth
      (some llm_provider) (some llm_model)
  pure (jobCount * points_per_stock)

end WebApp

namespace BatchRunner

open BatchProgressStore

/-- The observable outcome of one `run_stock_analysis` call: a success dict,
a dict with `success` falsy (whose `error` key may be absent), or a raised
exception. -/
inductive Outcome where
  | success (payload : String)
  | failure (error : Option String)
  | raises (message : String)
deriving DecidableEq, Repr

/-- One invocation of the per-stock progress callback created by
`create_stock_progress_callback`: `message, step=None, total_steps=None`. -/
structure FineEvent where
  message : String
  step : Option ℚ
  total_steps : Option ℚ
deriving DecidableEq, Repr

/-- The behaviour of one black-box `run_stock_analysis` call: the progress
callback invocations it performs (in order), then its outcome.  For a raising
call, `events` are the invocations that happened before the exception. -/
structure JobBehaviour where
  events : List FineEvent
  outcome : Outcome
deriving DecidableEq, Repr

/-- The fine-progress computation of `stock_progress_callback`: zero when the
step or total is absent or the total is not positive, otherwise the ratio
clamped into [0, 1]. -/
def fineProgress (e : FineEvent) : ℚ :=
  match e.step, e.total_steps with
  | some s, some t => if 0 < t then max 0 (min 1 (s / t)) else 0
  | _, _ => 0

/-- The progress percentage written when job `i` of `n` starts, and again by
the inter-job waiting update: `(current_index / total_stocks) * 100`. -/
def startPW (n i : Nat) : ℚ := (i : ℚ) / (n : ℚ) * 100

/-- The overall progress percentage written by the fine-progress callback of
job `i` of `n`: `((index - 1) + fine_progress) / max(1, total) * 100`. -/
def finePW (n i : Nat) (e : FineEvent) : ℚ :=
  ((i : ℚ) - 1 + fineProgress e) / max 1 (n : ℚ) * 100

/-- Status text of the job-start update. -/
def startMessage (i n : Nat) (sym : String) : String :=
  "开始分析第 " ++ toString i ++ "/" ++ toString n ++ " 个股票: " ++ sym

/-- Status text of the inter-job waiting update. -/
def waitMessage (interval : Nat) : String :=
  "⏱️ 等待 " ++ toString interval ++ " 秒后分析下一个股票..."

/-- The partial-fields dict of the job-start `store_update_progress` call. -/
def startUpdate (sym : String) (i n : Nat) : ProgressUpdate :=
  { current_stock := some sym
    current_index := some i
    total_stocks := some n
    progress := some (startPW n i)
    status := some (startMessage i n sym) }

/-- The partial-fields dict written by `stock_progress_callback`; an empty
message falls back to the generic text, mirroring `message or '分析中...'`. -/
def fineUpdate (sym : String) (i n : Nat) (e : FineEvent) : ProgressUpdate :=
  { current_stock := some sym
    current_index := some i
    total_stocks := some n
    progress := some (finePW n i e)
    status := some (if e.message = "" then "分析中..." else e.message) }

/-- The partial-fields dict of the inter-job waiting update (only `status`
and `progress`). -/
def waitUpdate (interval i n : Nat) : ProgressUpdate :=
  { current_stock := none
    current_index := none
    total_stocks := none
    progress := some (startPW n i)
    status := some (waitMessage interval) }

/-- One call into `batch_progress_store` as performed by the orchestrator or
any other writer. -/
inductive StoreOp where
  | init (batch_id : String) (total : Nat) (t1 t2 : ℚ)
  | update (batch_id : String) (u : ProgressUpdate) (now : ℚ)
  | addCompleted (batch_id : String) (r : StockResult) (now : ℚ)
  | setStatus (batch_id : String) (status : String) (progress : Option ℚ) (now : ℚ)
  | complete (batch_id : String) (now : ℚ)
  | fail (batch_id : String) (error : String) (now : ℚ)
deriving DecidableEq, Repr

/-- Interpreting one store call on the value-level store. -/
def applyOp (σ : Store) : StoreOp → Store
  | .init bid total t1 t2 => init_batch σ bid total t1 t2
  | .update bid u now => update_progress σ bid u now
  | .addCompleted bid r now => add_completed_stock σ bid r now
  | .setStatus bid s p now => set_status σ bid s p now
  | .complete bid now => complete_batch σ bid now
  | .fail bid e now => fail_batch σ bid e now

/-- Interpreting a sequence of store calls. -/
def applyOps (σ : Store) (ops : List StoreOp) : Store := ops.foldl applyOp σ

/-- The `completed_stocks` record built for one job: the formatted success
dict, the failure dict (with the `'未知错误'` fallback for a missing error
key), or the exception dict (which carries no `analysis_duration`). -/
def stockResultOf (sym : String) (o : Outcome) (dur tA : ℚ) : StockResult :=
  match o with
  | .success payload =>
    { stock_symbol := sym, success := true, error := none,
      payload := some payload, analysis_time := tA, analysis_duration := some dur }
  | .failure err =>
    { stock_symbol := sym, success := false, error := some (err.getD "未知错误"),
      payload := none, analysis_time := tA, analysis_duration := some dur }
  | .raises msg =>
    { stock_symbol := sym, success := false, error := some msg,
      payload := none, analysis_time := tA, analysis_duration := none }

/-- The store updates issued by the fine-progress callback during job `i`,
one per callback invocation.  `tf` maps the index of a `time.time()` call to
its value; `k` is the index of the next call; the second component is the
index after the last event. -/
def fineOps (tf : Nat → ℚ) (bid sym : String) (i n : Nat) :
    List FineEvent → Nat → List StoreOp × Nat
  | [], k => ([], k)
  | e :: es, k =>
    let rest := fineOps tf bid sym i n es (k + 1)
    (StoreOp.update bid (fineUpdate sym i n e) (tf k) :: rest.1, rest.2)

/-- Whether the inter-job waiting branch runs after job `i` of `n`: it is
skipped for the last job and — because the exception handler rejoins the loop
after it — for a job whose analysis raised. -/
def hasWait (o : Outcome) (i n : Nat) : Bool :=
  (match o with
   | .raises _ => false
   | _ => true) && decide (i < n)

/-- The store calls of one iteration of the orchestrator loop (1-based job
index `i` of `n`): the job-start update, the fine-progress updates, the
completed-stock append, and (on the non-raising, non-final path) the waiting
update. -/
def jobTrace (tf : Nat → ℚ) (bid : String) (interval n i : Nat) (sym : String)
    (b : JobBehaviour) (k : Nat) : List StoreOp × Nat :=
  let startOp := StoreOp.update bid (startUpdate sym i n) (tf k)
  let kStart := k + 1
  let fr := fineOps tf bid sym i n b.events (kStart + 1)
  let kEnd := fr.2
  let dur := tf kEnd - tf kStart
  let kA := kEnd + 1
  let addOp :=
    StoreOp.addCompleted bid (stockResultOf sym b.outcome dur (tf kA)) (tf (kA + 1))
  if hasWait b.outcome i n then
    (startOp :: fr.1 ++ [addOp, StoreOp.update bid (waitUpdate interval i n) (tf (kA + 2))],
      kA + 3)
  else
    (startOp :: fr.1 ++ [addOp], kA + 2)

/-- The store calls of the whole loop, jobs taken in list order starting at
1-based index `i`. -/
def jobsTrace (tf : Nat → ℚ) (bid : String) (interval n : Nat) :
    List (String × JobBehaviour) → Nat → Nat → List StoreOp × Nat
  | [], _, k => ([], k)
  | (sym, b) :: rest, i, k =>
    let jt := jobTrace tf bid interval n i sym b k
    let rt := jobsTrace tf bid interval n rest (i + 1) jt.2
    (jt.1 ++ rt.1, rt.2)

/-- The full sequence of store calls of `run_batch_stock_analysis`: the
initialisation, the per-job calls, and the final `complete_batch`.  The
behaviour of each black-box analysis call is supplied alongside its symbol;
`tf` supplies the values of the successive `time.time()` calls. -/
def runBatchTrace (tf : Nat → ℚ) (bid : String) (interval : Nat)
    (jobs : List (String × JobBehaviour)) : List StoreOp :=
  let jt := jobsTrace tf bid interval jobs.length jobs 1 2
  StoreOp.init bid jobs.length (tf 0) (tf 1) ::
    jt.1 ++ [StoreOp.complete bid (tf (jt.2 + 1))]

/-- The progress value a store call writes, if any: `init_batch` writes `0`,
`complete_batch` writes `100`, updates write their `progress` field. -/
def progressWritten : StoreOp → Option ℚ
  | .init _ _ _ _ => some 0
  | .update _ u _ => u.progress
  | .setStatus _ _ p _ => p
  | .complete _ _ => some 100
  | .addCompleted _ _ _ => none
  | .fail _ _ _ => none

/-- The sequence of progress values written along a call sequence. -/
def progressWrites (ops : List StoreOp) : List ℚ :=
  ops.filterMap progressWritten

/-- The progress writes of one loop iteration, each tagged with whether it is
the job-start write (`true`) or not (`false`). -/
def jobPW (n i : Nat) (b : JobBehaviour) : List (Bool × ℚ) :=
  (true, startPW n i) ::
    (b.events.map (fun e => (false, finePW n i e)) ++
      (if hasWait b.outcome i n then [(false, startPW n i)] else []))

/-- The tagged progress writes of the whole loop. -/
def jobsPW (n : Nat) : List (String × JobBehaviour) → Nat → List (Bool × ℚ)
  | [], _ => []
  | (_, b) :: rest, i => jobPW n i b ++ jobsPW n rest (i + 1)

/-- The tagged progress writes of the whole batch: the initial `0`, the
per-job writes, and the final `100`. -/
def batchPW (jobs : List (String × JobBehaviour)) : List (Bool × ℚ) :=
  (false, 0) :: jobsPW jobs.length jobs 1 ++ [(false, 100)]

/-- Whether an analysis outcome is recorded as a success. -/
def isSuccessOutcome : Outcome → Bool
  | .success _ => true
  | _ => false

/-- The wait-branch ops of one loop iteration. -/
def waitOps (tf : Nat → ℚ) (bid : String) (interval n i : Nat)
    (o : Outcome) (k : Nat) : List StoreOp :=
  if hasWait o i n then [StoreOp.update bid (waitUpdate interval i n) (tf k)] else []

/-- The progress writes of one loop iteration with the job-start write
removed: the fine-progress writes and, when present, the waiting write. -/
def jobNS (n i : Nat) (b : JobBehaviour) : List ℚ :=
  b.events.map (finePW n i) ++
    (if hasWait b.outcome i n then [startPW n i] else [])

/-- The non-start progress writes of the whole loop. -/
def jobsNS (n : Nat) : List (String × JobBehaviour) → Nat → List ℚ
  | [], _ => []
  | (_, b) :: rest, i => jobNS n i b ++ jobsNS n rest (i + 1)

/-- The non-start progress writes of the whole batch. -/
def batchNS (jobs : List (String × JobBehaviour)) : List ℚ :=
  0 :: jobsNS jobs.length jobs 1 ++ [100]

end BatchRunner

@[simp] theorem alookup_nil {α β : Type} [DecidableEq α] (key : α) :
    alookup ([] : List (α × β)) key = none := rfl

@[simp] theorem alookup_cons {α β : Type} [DecidableEq α] (k : α) (v : β)
    (rest : List (α × β)) (key : α) :
    alookup ((k, v) :: rest) key = if k = key then some v else alookup rest key := rfl

@[simp] theorem aset_nil {α β : Type} [DecidableEq α] (key : α) (v : β) :
    aset ([] : List (α × β)) key v = [(key, v)] := rfl

theorem alookup_aset_self {α β : Type} [DecidableEq α]
    (l : List (α × β)) (key : α) (v : β) :
    alookup (aset l key v) key = some v := by
  induction l with
  | nil => simp [aset]
  | cons hd tl ih =>
    obtain ⟨k, w⟩ := hd
    by_cases h : k = key
    · simp [aset, h]
    · simp [aset, h, ih]

theorem alookup_aset_ne {α β : Type} [DecidableEq α]
    (l : List (α × β)) (key key' : α) (v : β) (h : key ≠ key') :
    alookup (aset l key v) key' = alookup l key' := by
  induction l with
  | nil => simp [aset, h]
  | cons hd tl ih =>
    obtain ⟨k, w⟩ := hd
    by_cases hk : k = key
    · subst hk
      simp [aset, h]
    · simp [aset, hk, ih]

theorem alookup_amodify_self {α β : Type} [DecidableEq α]
    (l : List (α × β)) (key : α) (f : β → β) :
    alookup (amodify l key f) key = (alookup l key).map f := by
  unfold amodify
  cases h : alookup l key with
  | none => simp [h]
  | some v => simp [h, alookup_aset_self]

theorem alookup_eq_none_iff {α β : Type} [DecidableEq α]
    (l : List (α × β)) (key : α) :
    alookup l key = none ↔ key ∉ l.map Prod.fst := by
  induction l with
  | nil => simp
  | cons hd tl ih =>
    obtain ⟨k, w⟩ := hd
    by_cases h : k = key
    · subst h
      simp
    · simp [h, ih, Ne.symm h]

theorem alookup_aerase_self {α β : Type} [DecidableEq α]
    (l : List (α × β)) (key : α) (hnd : (l.map Prod.fst).Nodup) :
    alookup (aerase l key) key = none := by
  induction l with
  | nil => rfl
  | cons hd tl ih =>
    obtain ⟨k, w⟩ := hd
    simp only [List.map_cons, List.nodup_cons] at hnd
    by_cases h : k = key
    · subst h
      unfold aerase
      simp only [if_true]
      exact (alookup_eq_none_iff tl k).mpr hnd.1
    · unfold aerase
      simp [h, ih hnd.2]

namespace BatchRunner

open BatchProgressStore

theorem applyOps_nil (σ : Store) : applyOps σ [] = σ := rfl

theorem applyOps_cons (σ : Store) (op : StoreOp) (ops : List StoreOp) :
    applyOps σ (op :: ops) = applyOps (applyOp σ op) ops := rfl

theorem applyOps_append (σ : Store) (l₁ l₂ : List StoreOp) :
    applyOps σ (l₁ ++ l₂) = applyOps (applyOps σ l₁) l₂ :=
  List.foldl_append _ _ _ _

theorem snap_init (σ : Store) (bid : String) (total : Nat) (t1 t2 : ℚ) :
    get_snapshot (applyOp σ (.init bid total t1 t2)) bid =
      some { progress_info := initProgressInfo total t1
             completed_stocks := []
             status := "running"
             last_update := t2 } := by
  simp [applyOp, init_batch, get_snapshot, alookup_aset_self]

theorem snap_update (σ : Store) (bid : String) (u : ProgressUpdate) (t : ℚ)
    {e : BatchEntry} (h : get_snapshot σ bid = some e) :
    get_snapshot (applyOp σ (.update bid u t)) bid =
      some { e with progress_info := applyUpdate e.progress_info u, last_update := t } := by
  simp only [applyOp, update_progress, get_snapshot] at *
  rw [h]
  simp [alookup_aset_self]

theorem snap_add (σ : Store) (bid : String) (r : StockResult) (t : ℚ)
    {e : BatchEntry} (h : get_snapshot σ bid = some e) :
    get_snapshot (applyOp σ (.addCompleted bid r t)) bid =
      some { e with completed_stocks := e.completed_stocks ++ [r], last_update := t } := by
  simp only [applyOp, add_completed_stock, get_snapshot] at *
  rw [h]
  simp [alookup_aset_self]

theorem snap_complete (σ : Store) (bid : String) (t : ℚ)
    {e : BatchEntry} (h : get_snapshot σ bid = some e) :
    get_snapshot (applyOp σ (.complete bid t)) bid =
      some { e with status := "completed"
                    progress_info :=
                      { e.progress_info with status := "✅ 批量分析完成", progress := 100 }
                    last_update := t } := by
  simp only [applyOp, complete_batch, get_snapshot] at *
  rw [h]
  simp [alookup_aset_self]

theorem prefix_append_cases {α : Type} {p a b : List α} (h : p <+: a ++ b) :
    p <+: a ∨ ∃ q, p = a ++ q ∧ q <+: b := by
  obtain ⟨t, ht⟩ := h
  rcases List.append_eq_append_iff.mp ht with ⟨a', ha, _⟩ | ⟨c', hp, hb⟩
  · exact Or.inl ⟨a', ha.symm⟩
  · exact Or.inr ⟨c', hp, ⟨t, hb.symm⟩⟩

theorem prefix_cons_cases {α : Type} {p : List α} {x : α} {l : List α}
    (h : p <+: x :: l) : p = [] ∨ ∃ q, p = x :: q ∧ q <+: l := by
  cases p with
  | nil => exact Or.inl rfl
  | cons y p' =>
    rw [List.cons_prefix_cons] at h
    exact Or.inr ⟨p', by rw [h.1], h.2⟩

theorem prefix_singleton_cases {α : Type} {p : List α} {x : α}
    (h : p <+: [x]) : p = [] ∨ p = [x] := by
  rcases prefix_cons_cases h with h0 | ⟨q, hq, hql⟩
  · exact Or.inl h0
  · rw [List.prefix_nil] at hql
    exact Or.inr (by rw [hq, hql])

theorem mem_of_head?_eq {α : Type} {l : List α} {x : α} (h : l.head? = some x) :
    x ∈ l := by
  cases l with
  | nil => simp at h
  | cons a t =>
    simp only [List.head?_cons, Option.some.injEq] at h
    exact h ▸ List.mem_cons_self a t

theorem mem_of_getLast?_eq {α : Type} {l : List α} {x : α}
    (h : l.getLast? = some x) : x ∈ l := by
  induction l with
  | nil => simp at h
  | cons a t ih =>
    cases t with
    | nil =>
      simp only [List.getLast?_singleton, Option.some.injEq] at h
      exact h ▸ List.mem_singleton_self a
    | cons b t' =>
      rw [List.getLast?_cons_cons] at h
      exact List.mem_cons_of_mem a (ih h)

/-- Every store call issued by the fine-progress callback is an
`update_progress` on the batch's own id. -/
theorem mem_fineOps {tf : Nat → ℚ} {bid sym : String} {i n : Nat}
    {es : List FineEvent} {k : Nat} {op : StoreOp}
    (h : op ∈ (fineOps tf bid sym i n es k).1) :
    ∃ u t, op = StoreOp.update bid u t := by
  induction es generalizing k with
  | nil => simp [fineOps] at h
  | cons e es ih =>
    simp only [fineOps, List.mem_cons] at h
    rcases h with h | h
    · exact ⟨_, _, h⟩
    · exact ih h

/-- `update_progress` calls leave `completed_stocks` and the top-level status
of the entry unchanged. -/
theorem snapshot_after_updates {bid : String} :
    ∀ (ops : List StoreOp) (σ : Store) (e : BatchEntry),
      (∀ op ∈ ops, ∃ u t, op = StoreOp.update bid u t) →
      get_snapshot σ bid = some e →
      ∃ e', get_snapshot (applyOps σ ops) bid = some e' ∧
        e'.completed_stocks = e.completed_stocks ∧ e'.status = e.status := by
  intro ops
  induction ops with
  | nil => exact fun σ e _ h => ⟨e, h, rfl, rfl⟩
  | cons op rest ih =>
    intro σ e hall h
    obtain ⟨u, t, hop⟩ := hall op (List.mem_cons_self _ _)
    subst hop
    rw [applyOps_cons]
    obtain ⟨e', he', hc, hs⟩ :=
      ih (applyOp σ (.update bid u t))
        { e with progress_info := applyUpdate e.progress_info u, last_update := t }
        (fun op hm => hall op (List.mem_cons_of_mem _ hm))
        (snap_update σ bid u t h)
    exact ⟨e', he', hc, hs⟩

theorem stockResultOf_symbol (sym : String) (o : Outcome) (d a : ℚ) :
    (stockResultOf sym o d a).stock_symbol = sym := by
  cases o <;> rfl

theorem stockResultOf_success (sym : String) (o : Outcome) (d a : ℚ) :
    (stockResultOf sym o d a).success = isSuccessOutcome o := by
  cases o <;> rfl

/-- States reached inside a segment `updates ++ append ++ updates`: the
completed list either has not yet, or has exactly once, received the job's
record; the top-level status never changes. -/
theorem snapshot_after_mid_prefix {bid : String} (U W pref : List StoreOp)
    (σ : Store) (e : BatchEntry) (r : StockResult) (tA : ℚ)
    (hU : ∀ op ∈ U, ∃ u t, op = StoreOp.update bid u t)
    (hW : ∀ op ∈ W, ∃ u t, op = StoreOp.update bid u t)
    (hpre : pref <+: U ++ StoreOp.addCompleted bid r tA :: W)
    (h : get_snapshot σ bid = some e) :
    ∃ e', get_snapshot (applyOps σ pref) bid = some e' ∧ e'.status = e.status ∧
      (e'.completed_stocks = e.completed_stocks ∨
        e'.completed_stocks = e.completed_stocks ++ [r]) := by
  rcases prefix_append_cases hpre with hin | ⟨q, hq, hqpre⟩
  · obtain ⟨e', he', hc, hs⟩ :=
      snapshot_after_updates pref σ e (fun op hm => hU op (hin.subset hm)) h
    exact ⟨e', he', hs, Or.inl hc⟩
  · subst hq
    rw [applyOps_append]
    obtain ⟨e₁, he₁, hc₁, hs₁⟩ := snapshot_after_updates U σ e hU h
    rcases prefix_cons_cases hqpre with h0 | ⟨q', hq', hq'pre⟩
    · subst h0
      exact ⟨e₁, he₁, hs₁, Or.inl hc₁⟩
    · subst hq'
      rw [applyOps_cons]
      obtain ⟨e₃, he₃, hc₃, hs₃⟩ :=
        snapshot_after_updates q' (applyOp (applyOps σ U) (.addCompleted bid r tA))
          { e₁ with completed_stocks := e₁.completed_stocks ++ [r], last_update := tA }
          (fun op hm => hW op (hq'pre.subset hm))
          (snap_add _ bid r tA he₁)
      refine ⟨e₃, he₃, by rw [hs₃]; exact hs₁, Or.inr ?_⟩
      rw [hc₃]
      simp [hc₁]

theorem mem_waitOps {tf : Nat → ℚ} {bid : String} {interval n i : Nat}
    {o : Outcome} {k : Nat} {op : StoreOp}
    (h : op ∈ waitOps tf bid interval n i o k) :
    ∃ u t, op = StoreOp.update bid u t := by
  unfold waitOps at h
  by_cases hw : hasWait o i n
  · simp only [hw, if_true, List.mem_singleton] at h
    exact ⟨_, _, h⟩
  · simp [hw] at h

/-- The ops of one loop iteration, decomposed into start, fine updates, the
append, and the optional waiting update. -/
theorem jobTrace_eq (tf : Nat → ℚ) (bid : String) (interval n i : Nat)
    (sym : String) (b : JobBehaviour) (k : Nat) :
    (jobTrace tf bid interval n i sym b k).1 =
      StoreOp.update bid (startUpdate sym i n) (tf k) ::
        ((fineOps tf bid sym i n b.events (k + 2)).1 ++
          StoreOp.addCompleted bid
            (stockResultOf sym b.outcome
              (tf (fineOps tf bid sym i n b.events (k + 2)).2 - tf (k + 1))
              (tf ((fineOps tf bid sym i n b.events (k + 2)).2 + 1)))
            (tf ((fineOps tf bid sym i n b.events (k + 2)).2 + 2)) ::
          waitOps tf bid interval n i b.outcome
            ((fineOps tf bid sym i n b.events (k + 2)).2 + 3)) := by
  unfold jobTrace waitOps
  by_cases hw : hasWait b.outcome i n <;> simp [hw]

/-- States reached inside one loop iteration. -/
theorem snapshot_after_job_prefix {tf : Nat → ℚ} {bid : String}
    {interval n i : Nat} {sym : String} {b : JobBehaviour} {k : Nat}
    {pref : List StoreOp} {σ : Store} {e : BatchEntry}
    (hpre : pref <+: (jobTrace tf bid interval n i sym b k).1)
    (h : get_snapshot σ bid = some e) :
    ∃ e', get_snapshot (applyOps σ pref) bid = some e' ∧ e'.status = e.status ∧
      (e'.completed_stocks = e.completed_stocks ∨
        ∃ d a, e'.completed_stocks =
          e.completed_stocks ++ [stockResultOf sym b.outcome d a]) := by
  rw [jobTrace_eq] at hpre
  rcases prefix_cons_cases hpre with h0 | ⟨q, hq, hqpre⟩
  · subst h0
    exact ⟨e, h, rfl, Or.inl rfl⟩
  · subst hq
    rw [applyOps_cons]
    obtain ⟨e', he', hs, hc⟩ :=
      snapshot_after_mid_prefix _ _ q _
        { e with progress_info := applyUpdate e.progress_info (startUpdate sym i n)
                 last_update := tf k }
        (stockResultOf sym b.outcome _ _) _
        (fun op hm => mem_fineOps hm) (fun op hm => mem_waitOps hm)
        hqpre (snap_update σ bid _ _ h)
    refine ⟨e', he', hs, ?_⟩
    rcases hc with hc | hc
    · exact Or.inl hc
    · exact Or.inr ⟨_, _, hc⟩

/-- The full effect of one loop iteration: exactly one record, carrying the
job's symbol and outcome, is appended; the status is untouched. -/
theorem snapshot_after_job {tf : Nat → ℚ} {bid : String}
    {interval n i : Nat} {sym : String} {b : JobBehaviour} {k : Nat}
    {σ : Store} {e : BatchEntry}
    (h : get_snapshot σ bid = some e) :
    ∃ e' d a,
      get_snapshot (applyOps σ (jobTrace tf bid interval n i sym b k).1) bid = some e' ∧
      e'.status = e.status ∧
      e'.completed_stocks = e.completed_stocks ++ [stockResultOf sym b.outcome d a] := by
  rw [jobTrace_eq, applyOps_cons]
  have he₁ := snap_update σ bid (startUpdate sym i n) (tf k) h
  obtain ⟨e₂, he₂, hc₂, hs₂⟩ :=
    snapshot_after_updates _ _ _ (fun op hm => mem_fineOps hm) he₁
  rw [applyOps_append, applyOps_cons]
  obtain ⟨e₄, he₄, hc₄, hs₄⟩ :=
    snapshot_after_updates _ _ _ (fun op hm => mem_waitOps hm)
      (snap_add _ bid _ _ he₂)
  refine ⟨e₄,
    tf (fineOps tf bid sym i n b.events (k + 2)).2 - tf (k + 1),
    tf ((fineOps tf bid sym i n b.events (k + 2)).2 + 1),
    he₄, ?_, ?_⟩
  · rw [hs₄]
    simpa using hs₂
  · rw [hc₄]
    simpa using hc₂

/-- The full effect of the loop: one record per job, appended in list order,
symbols and success flags matching the submitted jobs; status untouched. -/
theorem snapshot_after_jobs {tf : Nat → ℚ} {bid : String} {interval n : Nat} :
    ∀ (jobs : List (String × JobBehaviour)) (i k : Nat) (σ : Store) (e : BatchEntry),
      get_snapshot σ bid = some e →
      ∃ e', get_snapshot (applyOps σ (jobsTrace tf bid interval n jobs i k).1) bid = some e' ∧
        e'.status = e.status ∧
        e'.completed_stocks.map (fun r => r.stock_symbol) =
          e.completed_stocks.map (fun r => r.stock_symbol) ++ jobs.map Prod.fst ∧
        e'.completed_stocks.map (fun r => r.success) =
          e.completed_stocks.map (fun r => r.success) ++
            jobs.map (fun j => isSuccessOutcome j.2.outcome) := by
  intro jobs
  induction jobs with
  | nil =>
    intro i k σ e h
    exact ⟨e, h, rfl, by simp, by simp⟩
  | cons j rest ih =>
    intro i k σ e h
    obtain ⟨sym, b⟩ := j
    simp only [jobsTrace]
    rw [applyOps_append]
    obtain ⟨e₁, d, a, he₁, hs₁, hc₁⟩ :=
      @snapshot_after_job tf bid interval n i sym b k σ e h
    obtain ⟨e', he', hs', hsym', hsuc'⟩ := ih (i + 1) _ _ _ he₁
    refine ⟨e', he', by rw [hs', hs₁], ?_, ?_⟩
    · rw [hsym', hc₁]
      simp [stockResultOf_symbol]
    · rw [hsuc', hc₁]
      simp [stockResultOf_success]

/-- States reached at any point inside the loop: the recorded symbols are
always the first `m` submitted symbols, in order; status untouched. -/
theorem snapshot_after_jobs_prefix {tf : Nat → ℚ} {bid : String} {interval n : Nat} :
    ∀ (jobs : List (String × JobBehaviour)) (i k : Nat) (pref : List StoreOp)
      (σ : Store) (e : BatchEntry),
      pref <+: (jobsTrace tf bid interval n jobs i k).1 →
      get_snapshot σ bid = some e →
      ∃ e' m, get_snapshot (applyOps σ pref) bid = some e' ∧
        e'.status = e.status ∧ m ≤ jobs.length ∧
        e'.completed_stocks.map (fun r => r.stock_symbol) =
          e.completed_stocks.map (fun r => r.stock_symbol) ++
            (jobs.map Prod.fst).take m := by
  intro jobs
  induction jobs with
  | nil =>
    intro i k pref σ e hpre h
    simp only [jobsTrace] at hpre
    rw [List.prefix_nil] at hpre
    subst hpre
    exact ⟨e, 0, h, rfl, Nat.le_refl 0, by simp⟩
  | cons j rest ih =>
    intro i k pref σ e hpre h
    obtain ⟨sym, b⟩ := j
    simp only [jobsTrace] at hpre
    rcases prefix_append_cases hpre with hin | ⟨q, hq, hqpre⟩
    · obtain ⟨e', he', hs', hc'⟩ := snapshot_after_job_prefix hin h
      rcases hc' with hc' | ⟨d, a, hc'⟩
      · exact ⟨e', 0, he', hs', Nat.zero_le _, by simp [hc']⟩
      · refine ⟨e', 1, he', hs', by simp, ?_⟩
        rw [hc']
        simp [stockResultOf_symbol]
    · subst hq
      rw [applyOps_append]
      obtain ⟨e₁, d, a, he₁, hs₁, hc₁⟩ :=
        @snapshot_after_job tf bid interval n i sym b k σ e h
      obtain ⟨e', m', he', hs', hm', hsym'⟩ := ih (i + 1) _ q _ _ hqpre he₁
      refine ⟨e', m' + 1, he', by rw [hs', hs₁], by simpa using hm', ?_⟩
      rw [hsym', hc₁]
      simp [stockResultOf_symbol, List.take_succ_cons]

/-- The full batch trace written as an explicit cons/append. -/
theorem runBatchTrace_eq (tf : Nat → ℚ) (bid : String) (interval : Nat)
    (jobs : List (String × JobBehaviour)) :
    runBatchTrace tf bid interval jobs =
      StoreOp.init bid jobs.length (tf 0) (tf 1) ::
        ((jobsTrace tf bid interval jobs.length jobs 1 2).1 ++
          [StoreOp.complete bid
            (tf ((jobsTrace tf bid interval jobs.length jobs 1 2).2 + 1))]) := rfl

/-- The final state of a batch run: status completed, one record per job in
submission order with matching symbols and success flags. -/
theorem runBatch_final (tf : Nat → ℚ) (bid : String) (interval : Nat)
    (jobs : List (String × JobBehaviour)) (σ₀ : Store) :
    ∃ e, get_snapshot (applyOps σ₀ (runBatchTrace tf bid interval jobs)) bid = some e ∧
      e.status = "completed" ∧
      e.completed_stocks.map (fun r => r.stock_symbol) = jobs.map Prod.fst ∧
      e.completed_stocks.map (fun r => r.success) =
        jobs.map (fun j => isSuccessOutcome j.2.outcome) := by
  rw [runBatchTrace_eq, applyOps_cons, applyOps_append]
  obtain ⟨e₁, he₁, hs₁, hsym₁, hsuc₁⟩ :=
    snapshot_after_jobs jobs 1 2 _ _ (snap_init σ₀ bid jobs.length (tf 0) (tf 1))
  rw [applyOps_cons]
  refine ⟨_, by rw [applyOps_nil]; exact snap_complete _ bid _ he₁, rfl, ?_, ?_⟩
  · simpa using hsym₁
  · simpa using hsuc₁

/-- Any state observable during a batch run: the recorded symbols are a
prefix of the submitted ones, and the status is `running` except after the
very last write, which is the only one that makes it `completed`. -/
theorem runBatch_prefix (tf : Nat → ℚ) (bid : String) (interval : Nat)
    (jobs : List (String × JobBehaviour)) (σ₀ : Store) (pref : List StoreOp)
    (hpre : pref <+: runBatchTrace tf bid interval jobs) (hne : pref ≠ []) :
    ∃ e, get_snapshot (applyOps σ₀ pref) bid = some e ∧
      e.completed_stocks.map (fun r => r.stock_symbol) <+: jobs.map Prod.fst ∧
      (e.status = "running" ∨
        (e.status = "completed" ∧ pref = runBatchTrace tf bid interval jobs)) := by
  rw [runBatchTrace_eq] at hpre
  rcases prefix_cons_cases hpre with h0 | ⟨p', hp', hp'pre⟩
  · exact absurd h0 hne
  · subst hp'
    rw [applyOps_cons]
    have he₀ := snap_init σ₀ bid jobs.length (tf 0) (tf 1)
    rcases prefix_append_cases hp'pre with hin | ⟨q, hq, hqpre⟩
    · obtain ⟨e', m, he', hs', _, hsym'⟩ :=
        snapshot_after_jobs_prefix jobs 1 2 p' _ _ hin he₀
      refine ⟨e', he', ?_, Or.inl hs'⟩
      rw [hsym']
      simpa using List.take_prefix m (jobs.map Prod.fst)
    · subst hq
      rw [applyOps_append]
      obtain ⟨e₁, he₁, hs₁, hsym₁, _⟩ := snapshot_after_jobs jobs 1 2 _ _ he₀
      rcases prefix_singleton_cases hqpre with h0 | h1
      · subst h0
        rw [applyOps_nil]
        refine ⟨e₁, he₁, ?_, Or.inl hs₁⟩
        rw [hsym₁]
        simp
      · subst h1
        rw [applyOps_cons, applyOps_nil]
        refine ⟨_, snap_complete _ bid _ he₁, ?_, Or.inr ⟨rfl, ?_⟩⟩
        · simpa using List.prefix_iff_eq_take.mpr (by rw [hsym₁]; simp)
        · rw [runBatchTrace_eq]

theorem progressWrites_fineOps (tf : Nat → ℚ) (bid sym : String) (i n : Nat) :
    ∀ (es : List FineEvent) (k : Nat),
      progressWrites (fineOps tf bid sym i n es k).1 = es.map (finePW n i) := by
  intro es
  induction es with
  | nil => intro k; rfl
  | cons e es ih =>
    intro k
    simp only [fineOps, progressWrites, List.filterMap_cons, List.map_cons]
    rw [← progressWrites]
    rw [ih (k + 1)]
    rfl

theorem progressWrites_jobTrace (tf : Nat → ℚ) (bid : String)
    (interval n i : Nat) (sym : String) (b : JobBehaviour) (k : Nat) :
    progressWrites (jobTrace tf bid interval n i sym b k).1 =
      (jobPW n i b).map Prod.snd := by
  rw [jobTrace_eq]
  simp only [progressWrites, List.filterMap_cons, List.filterMap_append]
  rw [← progressWrites, ← progressWrites, progressWrites_fineOps]
  unfold waitOps jobPW
  by_cases hw : hasWait b.outcome i n <;>
    simp [hw, progressWrites, progressWritten, startUpdate, waitUpdate, fineUpdate,
      stockResultOf, List.map_map, Function.comp]

theorem progressWrites_jobsTrace (tf : Nat → ℚ) (bid : String)
    (interval n : Nat) :
    ∀ (jobs : List (String × JobBehaviour)) (i k : Nat),
      progressWrites (jobsTrace tf bid interval n jobs i k).1 =
        (jobsPW n jobs i).map Prod.snd := by
  intro jobs
  induction jobs with
  | nil => intro i k; rfl
  | cons j rest ih =>
    intro i k
    obtain ⟨sym, b⟩ := j
    simp only [jobsTrace, jobsPW, List.map_append]
    unfold progressWrites
    rw [List.filterMap_append]
    rw [← progressWrites, ← progressWrites, progressWrites_jobTrace, ih]

/-- The progress values actually written along the batch trace are exactly
the tagged model `batchPW`, tags dropped. -/
theorem progressWrites_runBatchTrace (tf : Nat → ℚ) (bid : String)
    (interval : Nat) (jobs : List (String × JobBehaviour)) :
    progressWrites (runBatchTrace tf bid interval jobs) =
      (batchPW jobs).map Prod.snd := by
  rw [runBatchTrace_eq]
  simp only [progressWrites, List.filterMap_cons, List.filterMap_append]
  rw [← progressWrites, progressWrites_jobsTrace]
  simp [batchPW, progressWritten]

theorem filter_falseTag (g : FineEvent → ℚ) (es : List FineEvent) :
    ((es.map (fun e => ((false : Bool), g e))).filter (fun p => !p.1)).map Prod.snd =
      es.map g := by
  induction es with
  | nil => rfl
  | cons e es ih => simp [ih]

theorem filter_jobPW (n i : Nat) (b : JobBehaviour) :
    ((jobPW n i b).filter (fun p => !p.1)).map Prod.snd = jobNS n i b := by
  unfold jobPW jobNS
  by_cases hw : hasWait b.outcome i n <;>
    simp [hw, List.filter_append, filter_falseTag]

theorem filter_jobsPW (n : Nat) :
    ∀ (jobs : List (String × JobBehaviour)) (i : Nat),
      ((jobsPW n jobs i).filter (fun p => !p.1)).map Prod.snd = jobsNS n jobs i := by
  intro jobs
  induction jobs with
  | nil => intro i; rfl
  | cons j rest ih =>
    intro i
    obtain ⟨sym, b⟩ := j
    simp only [jobsPW, jobsNS, List.filter_append, List.map_append]
    rw [filter_jobPW, ih]

/-- Dropping the job-start writes from the tagged write list yields the
non-start model. -/
theorem filter_batchPW (jobs : List (String × JobBehaviour)) :
    ((batchPW jobs).filter (fun p => !p.1)).map Prod.snd = batchNS jobs := by
  have h := filter_jobsPW jobs.length jobs 1
  unfold batchPW batchNS
  simp [List.filter_cons, List.filter_append, h]

theorem fineProgress_nonneg (e : FineEvent) : 0 ≤ fineProgress e := by
  unfold fineProgress
  rcases hs : e.step with _ | s <;> rcases ht : e.total_steps with _ | t <;>
      simp only [hs, ht] <;>
    try exact le_refl 0
  by_cases htp : (0 : ℚ) < t
  · rw [if_pos htp]
    exact le_max_left 0 _
  · rw [if_neg htp]

theorem fineProgress_le_one (e : FineEvent) : fineProgress e ≤ 1 := by
  unfold fineProgress
  rcases hs : e.step with _ | s <;> rcases ht : e.total_steps with _ | t <;>
      simp only [hs, ht] <;>
    try norm_num
  by_cases htp : (0 : ℚ) < t
  · rw [if_pos htp]
    exact max_le (by norm_num) (min_le_left _ _)
  · rw [if_neg htp]
    norm_num

theorem max_one_pos (n : Nat) : (0 : ℚ) < max 1 (n : ℚ) :=
  lt_of_lt_of_le zero_lt_one (le_max_left 1 _)

theorem finePW_ge (n i : Nat) (e : FineEvent) :
    ((i : ℚ) - 1) / max 1 (n : ℚ) * 100 ≤ finePW n i e := by
  unfold finePW
  have h := fineProgress_nonneg e
  have hm := max_one_pos n
  have hdiv : ((i : ℚ) - 1) / max 1 (n : ℚ) ≤
      ((i : ℚ) - 1 + fineProgress e) / max 1 (n : ℚ) :=
    (div_le_div_iff_of_pos_right hm).mpr (by linarith)
  exact mul_le_mul_of_nonneg_right hdiv (by norm_num)

theorem finePW_le (n i : Nat) (e : FineEvent) :
    finePW n i e ≤ (i : ℚ) / max 1 (n : ℚ) * 100 := by
  unfold finePW
  have h := fineProgress_le_one e
  have hm := max_one_pos n
  have hdiv : ((i : ℚ) - 1 + fineProgress e) / max 1 (n : ℚ) ≤
      (i : ℚ) / max 1 (n : ℚ) :=
    (div_le_div_iff_of_pos_right hm).mpr (by linarith)
  exact mul_le_mul_of_nonneg_right hdiv (by norm_num)

theorem finePW_mono (n i : Nat) (e₁ e₂ : FineEvent)
    (h : fineProgress e₁ ≤ fineProgress e₂) : finePW n i e₁ ≤ finePW n i e₂ := by
  unfold finePW
  have hm := max_one_pos n
  have hdiv : ((i : ℚ) - 1 + fineProgress e₁) / max 1 (n : ℚ) ≤
      ((i : ℚ) - 1 + fineProgress e₂) / max 1 (n : ℚ) :=
    (div_le_div_iff_of_pos_right hm).mpr (by linarith)
  exact mul_le_mul_of_nonneg_right hdiv (by norm_num)

theorem pwmul_mono (n : Nat) {a b : ℚ} (h : a ≤ b) :
    a / max 1 (n : ℚ) * 100 ≤ b / max 1 (n : ℚ) * 100 :=
  mul_le_mul_of_nonneg_right
    ((div_le_div_iff_of_pos_right (max_one_pos n)).mpr h) (by norm_num)

theorem ub_le_100 (n i : Nat) (hi : i ≤ n) :
    (i : ℚ) / max 1 (n : ℚ) * 100 ≤ 100 := by
  have hm := max_one_pos n
  have hin : (i : ℚ) ≤ max 1 (n : ℚ) :=
    le_trans (by exact_mod_cast hi) (le_max_right 1 (n : ℚ))
  have h1 : (i : ℚ) / max 1 (n : ℚ) ≤ 1 := (div_le_one hm).mpr hin
  calc (i : ℚ) / max 1 (n : ℚ) * 100 ≤ 1 * 100 :=
        mul_le_mul_of_nonneg_right h1 (by norm_num)
    _ = 100 := one_mul 100

theorem jobNS_bounds (n i : Nat) (b : JobBehaviour) (hn : (1 : ℚ) ≤ (n : ℚ)) :
    ∀ x ∈ jobNS n i b,
      ((i : ℚ) - 1) / max 1 (n : ℚ) * 100 ≤ x ∧
        x ≤ (i : ℚ) / max 1 (n : ℚ) * 100 := by
  intro x hx
  unfold jobNS at hx
  rcases List.mem_append.mp hx with hx | hx
  · obtain ⟨e, _, rfl⟩ := List.mem_map.mp hx
    exact ⟨finePW_ge n i e, finePW_le n i e⟩
  · by_cases hw : hasWait b.outcome i n
    · simp only [hw, if_true, List.mem_singleton] at hx
      subst hx
      have hmax : max 1 (n : ℚ) = (n : ℚ) := max_eq_right hn
      have heq : startPW n i = (i : ℚ) / max 1 (n : ℚ) * 100 := by
        unfold startPW
        rw [hmax]
      constructor
      · rw [heq]
        exact pwmul_mono n (by linarith)
      · exact le_of_eq heq
    · simp [hw] at hx

theorem chain_jobNS (n i : Nat) (b : JobBehaviour) (hn : (1 : ℚ) ≤ (n : ℚ))
    (hch : List.Chain' (· ≤ ·) (b.events.map fineProgress)) :
    List.Chain' (· ≤ ·) (jobNS n i b) := by
  unfold jobNS
  apply List.Chain'.append
  · have h1 : List.Chain' (fun a b => fineProgress a ≤ fineProgress b) b.events :=
      (List.chain'_map fineProgress).mp hch
    exact (List.chain'_map (finePW n i)).mpr
      (h1.imp (fun a b hab => finePW_mono n i a b hab))
  · by_cases hw : hasWait b.outcome i n <;> simp [hw]
  · intro x hx y hy
    by_cases hw : hasWait b.outcome i n
    · simp only [hw, if_true, List.head?_cons, Option.mem_def,
        Option.some.injEq] at hy
      subst hy
      obtain ⟨e, _, rfl⟩ := List.mem_map.mp (mem_of_getLast?_eq (Option.mem_def.mp hx))
      have hmax : max 1 (n : ℚ) = (n : ℚ) := max_eq_right hn
      have hle := finePW_le n i e
      unfold startPW
      rw [hmax] at hle
      exact hle
    · simp [hw] at hy

theorem chain_jobsNS (n : Nat) :
    ∀ (jobs : List (String × JobBehaviour)) (i : Nat),
      1 ≤ i → i + jobs.length = n + 1 →
      (∀ sb ∈ jobs, List.Chain' (· ≤ ·) (sb.2.events.map fineProgress)) →
      List.Chain' (· ≤ ·) (jobsNS n jobs i) ∧
        ∀ x ∈ jobsNS n jobs i,
          ((i : ℚ) - 1) / max 1 (n : ℚ) * 100 ≤ x ∧ x ≤ 100 := by
  intro jobs
  induction jobs with
  | nil =>
    intro i _ _ _
    exact ⟨List.chain'_nil, by simp [jobsNS]⟩
  | cons j rest ih =>
    intro i h1 hlen hall
    obtain ⟨sym, b⟩ := j
    have hi_le : i ≤ n := by
      simp only [List.length_cons] at hlen
      omega
    have hnq : (1 : ℚ) ≤ (n : ℚ) := by
      have : 1 ≤ n := le_trans h1 hi_le
      exact_mod_cast this
    obtain ⟨ihc, ihb⟩ := ih (i + 1) (by omega)
      (by simp only [List.length_cons] at hlen ⊢; omega)
      (fun sb hm => hall sb (List.mem_cons_of_mem _ hm))
    have hcast : ((i + 1 : Nat) : ℚ) - 1 = (i : ℚ) := by push_cast; ring
    unfold jobsNS
    constructor
    · apply List.Chain'.append
      · exact chain_jobNS n i b hnq (hall (sym, b) (List.mem_cons_self _ _))
      · exact ihc
      · intro x hx y hy
        have hxb := jobNS_bounds n i b hnq x (mem_of_getLast?_eq (Option.mem_def.mp hx))
        have hyb := ihb y (mem_of_head?_eq (Option.mem_def.mp hy))
        calc x ≤ (i : ℚ) / max 1 (n : ℚ) * 100 := hxb.2
          _ ≤ y := by
            have := hyb.1
            rw [hcast] at this
            exact this
    · intro x hx
      rcases List.mem_append.mp hx with hx | hx
      · have hb := jobNS_bounds n i b hnq x hx
        exact ⟨hb.1, le_trans hb.2 (ub_le_100 n i hi_le)⟩
      · have hb := ihb x hx
        refine ⟨?_, hb.2⟩
        have := hb.1
        rw [hcast] at this
        exact le_trans (pwmul_mono n (by linarith)) this

theorem chain_batchNS (jobs : List (String × JobBehaviour))
    (hch : ∀ sb ∈ jobs, List.Chain' (· ≤ ·) (sb.2.events.map fineProgress)) :
    List.Chain' (· ≤ ·) (batchNS jobs) := by
  unfold batchNS
  obtain ⟨hc, hb⟩ :=
    chain_jobsNS jobs.length jobs 1 (le_refl 1) (by omega) hch
  have h0 : (((1 : Nat) : ℚ) - 1) / max 1 (jobs.length : ℚ) * 100 = 0 := by
    norm_num
  apply List.chain'_cons'.mpr
  constructor
  · intro y hy
    cases hns : jobsNS jobs.length jobs 1 with
    | nil =>
      rw [hns] at hy
      simp at hy
      subst hy
      norm_num
    | cons z l =>
      rw [hns] at hy
      simp at hy
      subst hy
      have := (hb z (by rw [hns]; exact List.mem_cons_self _ _)).1
      rw [h0] at this
      exact this
  · apply List.Chain'.append hc (List.chain'_singleton 100)
    intro x hx y hy
    simp only [List.head?_cons, Option.mem_def, Option.some.injEq] at hy
    subst hy
    exact (hb x (mem_of_getLast?_eq (Option.mem_def.mp hx))).2

end BatchRunner

section Claims

open BatchProgressStore BatchRunner

/-- C2: for every job list and every behaviour of the per-job analysis call
(success, failure return, or raised exception), every job is executed and
recorded, and once the batch is marked completed the `completed_stocks` list
has exactly `total_jobs` entries, one per submitted job in order, with the
matching success flag — a failing job never prevents the later ones. -/
theorem claim_C2_isolation (σ₀ : Store) (tf : Nat → ℚ) (bid : String)
    (interval : Nat) (jobs : List (String × JobBehaviour)) :
    ∃ e, get_snapshot (applyOps σ₀ (runBatchTrace tf bid interval jobs)) bid = some e ∧
      e.status = "completed" ∧
      e.completed_stocks.length = jobs.length ∧
      e.completed_stocks.map (fun r => r.stock_symbol) = jobs.map Prod.fst ∧
      e.completed_stocks.map (fun r => r.success) =
        jobs.map (fun j => isSuccessOutcome j.2.outcome) := by
  obtain ⟨e, he, hs, hsym, hsuc⟩ := runBatch_final tf bid interval jobs σ₀
  refine ⟨e, he, hs, ?_, hsym, hsuc⟩
  have hlen := congrArg List.length hsym
  simpa using hlen

/-- C3: at every point during a batch's execution — after any prefix of the
orchestrator's store writes — the k-th recorded entry carries the symbol of
the k-th submitted job: the recorded symbols are a prefix of the submitted
ones. -/
theorem claim_C3_ordering (σ₀ : Store) (tf : Nat → ℚ) (bid : String)
    (interval : Nat) (jobs : List (String × JobBehaviour)) (pref : List StoreOp)
    (hpre : pref <+: runBatchTrace tf bid interval jobs) (hne : pref ≠ []) :
    ∃ e, get_snapshot (applyOps σ₀ pref) bid = some e ∧
      e.completed_stocks.map (fun r => r.stock_symbol) <+: jobs.map Prod.fst := by
  obtain ⟨e, he, hp, _⟩ := runBatch_prefix tf bid interval jobs σ₀ pref hpre hne
  exact ⟨e, he, hp⟩

/-- Witness for C3: the full trace of a concrete two-job batch (one success,
one failure) is a prefix of itself and is nonempty; the recorded symbols are
a prefix of the submitted ones. -/
theorem claim_C3_witness :
    ∃ e, get_snapshot
        (applyOps []
          (runBatchTrace (fun _ => 0) "b" 0
            [("AAA", { events := [], outcome := .success "p" }),
             ("BBB", { events := [], outcome := .failure none })]))
        "b" = some e ∧
      e.completed_stocks.map (fun r => r.stock_symbol) <+:
        ([("AAA", ({ events := [], outcome := .success "p" } : JobBehaviour)),
          ("BBB", { events := [], outcome := .failure none })].map Prod.fst) :=
  claim_C3_ordering [] (fun _ => 0) "b" 0
    [("AAA", { events := [], outcome := .success "p" }),
     ("BBB", { events := [], outcome := .failure none })]
    (runBatchTrace (fun _ => 0) "b" 0
      [("AAA", { events := [], outcome := .success "p" }),
       ("BBB", { events := [], outcome := .failure none })])
    (List.prefix_refl _)
    (by rw [runBatchTrace_eq]; exact List.cons_ne_nil _ _)

/-- C7 counterexample: initialising a batch does not leave it in a PENDING
phase — the stored status is the string `running` immediately, not
`pending`. -/
theorem claim_C7_counterexample :
    ((get_snapshot (init_batch ([] : Store) "b" 3 0 0) "b").map
        (fun e => e.status) = some "running") ∧
    ((get_snapshot (init_batch ([] : Store) "b" 3 0 0) "b").map
        (fun e => e.status) ≠ some "pending") := by
  constructor <;> decide

/-- C7 amended: initialising a batch creates a snapshot with
`total_stocks = N`, current index 0, progress 0 and the fixed initial status
text, but its phase is RUNNING immediately upon initialisation — there is no
PENDING phase, and only completion or failure changes the phase later. -/
theorem claim_C7_amended (σ : Store) (bid : String) (N : Nat) (t1 t2 : ℚ) :
    get_snapshot (init_batch σ bid N t1 t2) bid =
      some { progress_info :=
               { current_stock := "", current_index := 0, total_stocks := N,
                 progress := 0, status := "准备中...", start_time := t1 }
             completed_stocks := []
             status := "running"
             last_update := t2 } := by
  unfold get_snapshot init_batch initProgressInfo
  exact alookup_aset_self σ bid _

end Claims

section Claims2

open BatchProgressStore

/-- C9: every mutating store operation on a batch id that is not in the
table is a silent no-op — it returns normally (the operations are total
functions) and leaves the entire table unchanged. -/
theorem claim_C9_unknown_noop (σ : Store) (bid : String) (u : ProgressUpdate)
    (r : StockResult) (s : String) (p : Option ℚ) (err : String) (t : ℚ)
    (h : alookup σ bid = none) :
    update_progress σ bid u t = σ ∧
    add_completed_stock σ bid r t = σ ∧
    set_status σ bid s p t = σ ∧
    complete_batch σ bid t = σ ∧
    fail_batch σ bid err t = σ := by
  unfold update_progress add_completed_stock set_status complete_batch fail_batch
  rw [h]
  exact ⟨rfl, rfl, rfl, rfl, rfl⟩

/-- Witness for C9: on the empty table, every mutator with a concrete
argument leaves the table empty. -/
theorem claim_C9_witness :
    alookup ([] : Store) "b" = none ∧
    (update_progress ([] : Store) "b"
        { current_stock := none, current_index := none, total_stocks := none,
          progress := some 50, status := some "x" } 1 = [] ∧
      add_completed_stock ([] : Store) "b"
        { stock_symbol := "A", success := true, error := none, payload := some "p",
          analysis_time := 2, analysis_duration := some 1 } 1 = [] ∧
      set_status ([] : Store) "b" "s" (some 100) 1 = [] ∧
      complete_batch ([] : Store) "b" 1 = [] ∧
      fail_batch ([] : Store) "b" "boom" 1 = []) :=
  ⟨rfl, claim_C9_unknown_noop [] "b"
    { current_stock := none, current_index := none, total_stocks := none,
      progress := some 50, status := some "x" }
    { stock_symbol := "A", success := true, error := none, payload := some "p",
      analysis_time := 2, analysis_duration := some 1 }
    "s" (some 100) "boom" 1 rfl⟩

/-- C10: for a batch id absent from the table — never created, or removed by
`clear_batch` — `get_snapshot` returns the empty record (modelled by `none`),
never an exception (the function is total), so a poller distinguishes a
missing batch exactly by the emptiness of the result. -/
theorem claim_C10_missing_empty (σ : Store) (bid : String)
    (hnd : (σ.map Prod.fst).Nodup) :
    (get_snapshot σ bid = none ↔ alookup σ bid = none) ∧
    get_snapshot (clear_batch σ bid) bid = none ∧
    get_snapshot ([] : Store) bid = none ∧
    (∀ e, get_snapshot σ bid = some e → alookup σ bid = some e) := by
  refine ⟨Iff.rfl, ?_, rfl, fun e he => he⟩
  unfold get_snapshot clear_batch
  exact alookup_aerase_self σ bid hnd

/-- Witness for C10: a table holding one batch, keys duplicate-free; clearing
that batch makes its snapshot empty. -/
theorem claim_C10_witness :
    ((((init_batch ([] : Store) "b" 3 0 0).map Prod.fst).Nodup) ∧
      get_snapshot (clear_batch (init_batch ([] : Store) "b" 3 0 0) "b") "b" = none) :=
  ⟨by decide,
    (claim_C10_missing_empty (init_batch ([] : Store) "b" 3 0 0) "b" (by decide)).2.1⟩

end Claims2

section Claims3

open BatchProgressStore

/-- C4 counterexample: the batch identifier generated at submission for user
`alice` does not contain the user's identity at all — in particular it is not
prefixed by it — so ownership cannot be decided from the identifier. -/
theorem claim_C4_counterexample :
    ¬ ("alice".data <:+:
        (WebApp.submissionBatchId "alice" "00000000" "20260101_000000").data) := by
  decide

/-- C4 amended: every BatchId generated at submission is the constant prefix
`batch_` followed by the random token and the timestamp; the owning user's
identity is not an input to the generator, so the identifier is identical for
any two users given the same random token and timestamp, and ownership of a
batch cannot be decided from the identifier alone. -/
theorem claim_C4_amended (username rand8 timestamp : String) :
    WebApp.submissionBatchId username rand8 timestamp =
      "batch_" ++ rand8 ++ "_" ++ timestamp ∧
    ∀ username', WebApp.submissionBatchId username rand8 timestamp =
      WebApp.submissionBatchId username' rand8 timestamp :=
  ⟨rfl, fun _ => rfl⟩

/-- C5 counterexample: a batch created on behalf of user `alice` is resolved
on behalf of the distinct user `bob` to the full stored snapshot — not to a
Forbidden result — because the poll path performs no ownership check. -/
theorem claim_C5_counterexample :
    WebApp.resolveBatchPoll "bob"
        (init_batch ([] : Store)
          (WebApp.submissionBatchId "alice" "00000000" "20260101_000000") 1 0 0)
        (WebApp.submissionBatchId "alice" "00000000" "20260101_000000") =
      some { progress_info :=
               { current_stock := "", current_index := 0, total_stocks := 1,
                 progress := 0, status := "准备中...", start_time := 0 }
             completed_stocks := []
             status := "running"
             last_update := 0 } := by
  decide

/-- C5 amended: resolving a batch identifier never returns Forbidden and
performs no ownership check at all — the result is independent of the calling
user and equals the raw store snapshot; the only isolation in the code is
that the UI supplies the identifier from the caller's own session state. -/
theorem claim_C5_amended (uA uB : String) (σ : Store) (bid : String) :
    WebApp.resolveBatchPoll uA σ bid = WebApp.resolveBatchPoll uB σ bid ∧
    WebApp.resolveBatchPoll uB σ bid = get_snapshot σ bid :=
  ⟨rfl, rfl⟩

end Claims3

section Claims4

open ModelPoints

/-- C8: for every valid research depth (1..5), model identifier and job
count, the quoted cost of a batch is the job count times the per-job cost,
the per-job cost being the depth-level base cost (zero when the
research-depth toggle is off) plus the per-model surcharge (zero when the
model-points toggle is off); with both toggles off the quote is zero for
every depth. -/
theorem claim_C8_quote (tc : ToggleConfig) (depthCfg : DepthConfig)
    (modelCfg : ModelConfig) (d : Nat) (p m : String) (jobCount : Nat)
    (hd1 : 1 ≤ d) (hd5 : d ≤ 5) (hp : p ≠ "") (hm : m ≠ "") :
    WebApp.batchQuote tc depthCfg modelCfg d p m jobCount =
      .ok (jobCount *
        ((if tc.enable_research_depth_points then
            (alookup depthCfg d).getD
              ((alookup DEFAULT_RESEARCH_DEPTH_POINTS_CONFIG d).getD 1)
          else 0) +
         (if tc.enable_model_points then get_model_points modelCfg p m else 0))) ∧
    (∀ d' : Nat,
      WebApp.batchQuote
        { enable_research_depth_points := false, enable_model_points := false }
        depthCfg modelCfg d' p m jobCount = .ok 0) := by
  have hguard : ¬ (d < 1 ∨ 5 < d) := by omega
  have hguard' : ¬ (d = 0 ∨ 5 < d) := by omega
  constructor
  · obtain ⟨edp, emp⟩ := tc
    cases edp <;> cases emp <;>
      simp [WebApp.batchQuote, get_analysis_points, get_research_depth_points,
        hguard, hguard', hp, hm, pure, Except.pure, Except.map, bind, Except.bind]
  · intro d'
    simp [WebApp.batchQuote, get_analysis_points, pure, Except.pure, Except.map, bind, Except.bind]

/-- Witness for C8: a concrete quote — depth 3 (base 3 points), model
`qwen-turbo` at 1 point, 4 jobs — with both toggles enabled. -/
theorem claim_C8_witness :
    ((1 ≤ 3 ∧ 3 ≤ 5) ∧ ("dashscope" ≠ "" ∧ "qwen-turbo" ≠ "")) ∧
    (WebApp.batchQuote
        { enable_research_depth_points := true, enable_model_points := true }
        DEFAULT_RESEARCH_DEPTH_POINTS_CONFIG [(("dashscope", "qwen-turbo"), 1)]
        3 "dashscope" "qwen-turbo" 4 =
      .ok (4 *
        ((if ({ enable_research_depth_points := true, enable_model_points := true }
              : ToggleConfig).enable_research_depth_points then
            (alookup DEFAULT_RESEARCH_DEPTH_POINTS_CONFIG 3).getD
              ((alookup DEFAULT_RESEARCH_DEPTH_POINTS_CONFIG 3).getD 1)
          else 0) +
         (if ({ enable_research_depth_points := true, enable_model_points := true }
              : ToggleConfig).enable_model_points then
            get_model_points [(("dashscope", "qwen-turbo"), 1)] "dashscope" "qwen-turbo"
          else 0)))) ∧
    (∀ d' : Nat,
      WebApp.batchQuote
        { enable_research_depth_points := false, enable_model_points := false }
        DEFAULT_RESEARCH_DEPTH_POINTS_CONFIG [(("dashscope", "qwen-turbo"), 1)]
        d' "dashscope" "qwen-turbo" 4 = .ok 0) := by
  refine ⟨⟨⟨by decide, by decide⟩, ⟨by decide, by decide⟩⟩, ?_, ?_⟩
  · exact (claim_C8_quote
      { enable_research_depth_points := true, enable_model_points := true }
      DEFAULT_RESEARCH_DEPTH_POINTS_CONFIG [(("dashscope", "qwen-turbo"), 1)]
      3 "dashscope" "qwen-turbo" 4 (by decide) (by decide) (by decide) (by decide)).1
  · exact (claim_C8_quote
      { enable_research_depth_points := true, enable_model_points := true }
      DEFAULT_RESEARCH_DEPTH_POINTS_CONFIG [(("dashscope", "qwen-turbo"), 1)]
      3 "dashscope" "qwen-turbo" 4 (by decide) (by decide) (by decide) (by decide)).2

end Claims4

section Claims5

open BatchProgressStoreRef
open BatchProgressStore (ProgressUpdate StockResult applyUpdate)

/-- C6 counterexample: take the snapshot of a freshly initialised batch, then
update its progress; the nested `progress_info` record the snapshot holds a
reference to now reads 50 instead of 0 — the shallow `dict(...)` copy did not
protect the snapshot from the later mutation, refuting the deep-copy claim. -/
theorem claim_C6_counterexample :
    get_snapshot (BatchProgressStoreRef.init_batch emptyRefStore "b" 1 0 0) "b" =
      some { pi := 0, cs := 1, status := "running", last_update := 0 } ∧
    (derefPI (BatchProgressStoreRef.init_batch emptyRefStore "b" 1 0 0) 0).map
      (fun pi => pi.progress) = some 0 ∧
    (derefPI (BatchProgressStoreRef.update_progress
        (BatchProgressStoreRef.init_batch emptyRefStore "b" 1 0 0) "b"
        { current_stock := none, current_index := none, total_stocks := none,
          progress := some 50, status := some "x" } 1) 0).map
      (fun pi => pi.progress) = some 50 := by
  refine ⟨?_, ?_, ?_⟩ <;> decide

/-- C6 amended: `get_snapshot` returns a shallow (top-level) copy only.  The
snapshot's own `status` and `last_update` slots are decoupled values, but its
`progress_info` and `completed_stocks` slots are references to the nested
objects, which every mutator keeps in place and mutates in place — so a
previously returned snapshot observes later changes of the nested record and
list through those references. -/
theorem claim_C6_amended (σ : RefStore) (bid : String) (e : EntryRef)
    (u : ProgressUpdate) (r : StockResult) (s : String) (p : Option ℚ)
    (err : String) (t : ℚ)
    (h : get_snapshot σ bid = some e) :
    (∀ f ∈ refMutators bid u r s p err t,
      ∃ e', get_snapshot (f σ) bid = some e' ∧ e'.pi = e.pi ∧ e'.cs = e.cs) ∧
    (∀ pi₀, derefPI σ e.pi = some pi₀ →
      derefPI (BatchProgressStoreRef.update_progress σ bid u t) e.pi =
        some (applyUpdate pi₀ u)) ∧
    (∀ cs₀, derefCS σ e.cs = some cs₀ →
      derefCS (BatchProgressStoreRef.add_completed_stock σ bid r t) e.cs =
        some (cs₀ ++ [r])) := by
  unfold get_snapshot at h
  refine ⟨?_, ?_, ?_⟩
  · intro f hf
    simp only [refMutators, List.mem_cons, List.not_mem_nil, or_false] at hf
    rcases hf with rfl | rfl | rfl | rfl | rfl
    · refine ⟨{ e with last_update := t }, ?_, rfl, rfl⟩
      unfold BatchProgressStoreRef.update_progress get_snapshot
      simp [h, alookup_aset_self]
    · refine ⟨{ e with last_update := t }, ?_, rfl, rfl⟩
      unfold BatchProgressStoreRef.add_completed_stock get_snapshot
      simp [h, alookup_aset_self]
    · refine ⟨{ e with status := if p = some 100 then "completed" else e.status,
                       last_update := t }, ?_, rfl, rfl⟩
      unfold BatchProgressStoreRef.set_status get_snapshot
      simp [h, alookup_aset_self]
    · refine ⟨{ e with status := "completed", last_update := t }, ?_, rfl, rfl⟩
      unfold BatchProgressStoreRef.complete_batch get_snapshot
      simp [h, alookup_aset_self]
    · refine ⟨{ e with status := "failed", last_update := t }, ?_, rfl, rfl⟩
      unfold BatchProgressStoreRef.fail_batch get_snapshot
      simp [h, alookup_aset_self]
  · intro pi₀ hpi
    unfold BatchProgressStoreRef.update_progress derefPI
    unfold derefPI at hpi
    simp [h, alookup_amodify_self, hpi]
  · intro cs₀ hcs
    unfold BatchProgressStoreRef.add_completed_stock derefCS
    unfold derefCS at hcs
    simp [h, alookup_amodify_self, hcs]

/-- Witness for C6: the amended shallow-copy behaviour at a freshly
initialised concrete batch. -/
theorem claim_C6_witness :
    (get_snapshot (BatchProgressStoreRef.init_batch emptyRefStore "b" 1 0 0) "b" =
      some { pi := 0, cs := 1, status := "running", last_update := 0 }) ∧
    ((∀ f ∈ refMutators "b"
        { current_stock := none, current_index := none, total_stocks := none,
          progress := some 50, status := some "x" }
        { stock_symbol := "A", success := true, error := none, payload := some "p",
          analysis_time := 2, analysis_duration := some 1 }
        "s" (some 100) "boom" 1,
      ∃ e', get_snapshot (f (BatchProgressStoreRef.init_batch emptyRefStore "b" 1 0 0)) "b" =
          some e' ∧
        e'.pi = ({ pi := 0, cs := 1, status := "running", last_update := 0 } : EntryRef).pi ∧
        e'.cs = ({ pi := 0, cs := 1, status := "running", last_update := 0 } : EntryRef).cs) ∧
    (∀ pi₀, derefPI (BatchProgressStoreRef.init_batch emptyRefStore "b" 1 0 0)
        ({ pi := 0, cs := 1, status := "running", last_update := 0 } : EntryRef).pi = some pi₀ →
      derefPI (BatchProgressStoreRef.update_progress
          (BatchProgressStoreRef.init_batch emptyRefStore "b" 1 0 0) "b"
          { current_stock := none, current_index := none, total_stocks := none,
            progress := some 50, status := some "x" } 1)
        ({ pi := 0, cs := 1, status := "running", last_update := 0 } : EntryRef).pi =
        some (applyUpdate pi₀
          { current_stock := none, current_index := none, total_stocks := none,
            progress := some 50, status := some "x" })) ∧
    (∀ cs₀, derefCS (BatchProgressStoreRef.init_batch emptyRefStore "b" 1 0 0)
        ({ pi := 0, cs := 1, status := "running", last_update := 0 } : EntryRef).cs = some cs₀ →
      derefCS (BatchProgressStoreRef.add_completed_stock
          (BatchProgressStoreRef.init_batch emptyRefStore "b" 1 0 0) "b"
          { stock_symbol := "A", success := true, error := none, payload := some "p",
            analysis_time := 2, analysis_duration := some 1 } 1)
        ({ pi := 0, cs := 1, status := "running", last_update := 0 } : EntryRef).cs =
        some (cs₀ ++
          [{ stock_symbol := "A", success := true, error := none, payload := some "p",
             analysis_time := 2, analysis_duration := some 1 }]))) :=
  ⟨by decide,
    claim_C6_amended (BatchProgressStoreRef.init_batch emptyRefStore "b" 1 0 0) "b"
      { pi := 0, cs := 1, status := "running", last_update := 0 }
      { current_stock := none, current_index := none, total_stocks := none,
        progress := some 50, status := some "x" }
      { stock_symbol := "A", success := true, error := none, payload := some "p",
        analysis_time := 2, analysis_duration := some 1 }
      "s" (some 100) "boom" 1 (by decide)⟩

end Claims5

section Claims6

open BatchProgressStore BatchRunner

/-- C1 counterexample: for a one-job batch whose analysis emits a single
fine-progress callback at step 0 of 10, the stored progress values are, in
write order, 0 (init), 100 (the job-start write, which stores
current/total), 0 (the fine write, which stores ((index-1)+fine)/total) and
100 (completion): the sequence decreases from 100 to 0 while the phase is
RUNNING, refuting the claimed monotonicity of the stored fraction. -/
theorem claim_C1_counterexample :
    progressWrites (runBatchTrace (fun _ => 0) "b" 30
      [("A", { events := [{ message := "m", step := some 0, total_steps := some 10 }],
               outcome := .success "p" })]) = [0, 100, 0, 100] ∧
    ¬ List.Chain' (· ≤ ·) (progressWrites (runBatchTrace (fun _ => 0) "b" 30
      [("A", { events := [{ message := "m", step := some 0, total_steps := some 10 }],
               outcome := .success "p" })])) := by
  have h : progressWrites (runBatchTrace (fun _ => 0) "b" 30
      [("A", { events := [{ message := "m", step := some 0, total_steps := some 10 }],
               outcome := .success "p" })]) = [0, 100, 0, 100] := by
    simp [runBatchTrace, jobsTrace, jobTrace, fineOps, progressWrites, progressWritten,
      startUpdate, fineUpdate, waitUpdate, hasWait, startPW, finePW, fineProgress]
  refine ⟨h, ?_⟩
  rw [h]
  simp [List.chain'_cons]

/-- C1 amended: (a) along the orchestrator's writes the phase is RUNNING at
every intermediate point and becomes COMPLETED only at the very last write,
so it never moves back from COMPLETED or FAILED to RUNNING; (b) the stored
progress values are exactly the tagged model `batchPW`; (c) the claimed
monotonicity of the stored fraction holds only for the write sequence with
the job-start writes excluded, and only provided each job's clamped
fine-progress emissions are themselves non-decreasing — the job-start write
stores current/total (the fraction at the job's end) and is then undercut by
the fine-progress writes, as the counterexample shows. -/
theorem claim_C1_amended (σ₀ : Store) (tf : Nat → ℚ) (bid : String)
    (interval : Nat) (jobs : List (String × JobBehaviour))
    (hmono : ∀ sb ∈ jobs, List.Chain' (· ≤ ·) (sb.2.events.map fineProgress)) :
    (∀ pref, pref <+: runBatchTrace tf bid interval jobs → pref ≠ [] →
      ∃ e, get_snapshot (applyOps σ₀ pref) bid = some e ∧
        (e.status = "running" ∨
          (e.status = "completed" ∧ pref = runBatchTrace tf bid interval jobs))) ∧
    progressWrites (runBatchTrace tf bid interval jobs) =
      (batchPW jobs).map Prod.snd ∧
    List.Chain' (· ≤ ·) (((batchPW jobs).filter (fun q => !q.1)).map Prod.snd) := by
  refine ⟨?_, progressWrites_runBatchTrace tf bid interval jobs, ?_⟩
  · intro pref hpre hne
    obtain ⟨e, he, _, hst⟩ := runBatch_prefix tf bid interval jobs σ₀ pref hpre hne
    exact ⟨e, he, hst⟩
  · rw [filter_batchPW]
    exact chain_batchNS jobs hmono

/-- Witness for C1: a one-job batch whose analysis reports steps 1 of 2 and
then 2 of 2 — non-decreasing clamped fine progress — satisfies the amended
monotonicity. -/
theorem claim_C1_witness :
    (∀ sb ∈ ([("A",
        { events := [{ message := "m", step := some 1, total_steps := some 2 },
                     { message := "m2", step := some 2, total_steps := some 2 }],
          outcome := .success "p" })] : List (String × JobBehaviour)),
      List.Chain' (· ≤ ·) (sb.2.events.map fineProgress)) ∧
    List.Chain' (· ≤ ·)
      (((batchPW [("A",
          { events := [{ message := "m", step := some 1, total_steps := some 2 },
                       { message := "m2", step := some 2, total_steps := some 2 }],
            outcome := .success "p" })]).filter (fun q => !q.1)).map Prod.snd) := by
  have hm : ∀ sb ∈ ([("A",
      { events := [{ message := "m", step := some 1, total_steps := some 2 },
                   { message := "m2", step := some 2, total_steps := some 2 }],
        outcome := .success "p" })] : List (String × JobBehaviour)),
      List.Chain' (· ≤ ·) (sb.2.events.map fineProgress) := by
    intro sb hsb
    simp only [List.mem_singleton] at hsb
    subst hsb
    simp [fineProgress, List.chain'_cons]
  exact ⟨hm, (claim_C1_amended [] (fun _ => 0) "b" 30
    [("A",
      { events := [{ message := "m", step := some 1, total_steps := some 2 },
                   { message := "m2", step := some 2, total_steps := some 2 }],
        outcome := .success "p" })] hm).2.2⟩

end Claims6
